import Mathlib

/-!
Verification of the huffman-markov compressor core: the generic
sliding-window primitive, the fixed-depth Markov trie, the per-context
Huffman tree builder with its deterministic tie-break, the derived code
table, and the streaming bit-packing writer.

Shallow embedding conventions:
- Rust machine integers (usize, u8) are modelled as Nat; usize saturating
  addition saturates at USIZE_MAX = 2 ^ 64 - 1.
- A Rust panic (unwrap, unreachable, out-of-bounds index) is modelled as
  the value none of an Option-typed result.
- BTreeMap u8 is modelled as an association list kept sorted by key;
  HashMap is modelled as an association list in insertion order.
-/

namespace HuffmanMarkov

/-! ## List preliminaries -/

/-- Last min k (length l) elements of a list. -/
def lastN (k : Nat) (l : List α) : List α := l.drop (l.length - k)

theorem lastN_length (k : Nat) (l : List α) : (lastN k l).length = min k l.length := by
  simp only [lastN, List.length_drop]
  omega

theorem lastN_of_le (k : Nat) (l : List α) (h : l.length ≤ k) : lastN k l = l := by
  simp [lastN, Nat.sub_eq_zero_of_le h]

theorem lastN_cons (k : Nat) (x : α) (l : List α) (h : k ≤ l.length) :
    lastN k (x :: l) = lastN k l := by
  simp only [lastN, List.length_cons]
  have heq : l.length + 1 - k = (l.length - k) + 1 := by omega
  rw [heq, List.drop_succ_cons]

theorem lastN_append_of_le (k : Nat) (p s : List α) (h : k ≤ s.length) :
    lastN k (p ++ s) = lastN k s := by
  simp only [lastN, List.length_append]
  have heq : p.length + s.length - k = p.length + (s.length - k) := by omega
  rw [heq, List.drop_append]

theorem lastN_append_right (k : Nat) (p s : List α) (h : s.length = k) :
    lastN k (p ++ s) = s := by
  rw [lastN_append_of_le k p s (by omega), lastN_of_le k s (by omega)]

theorem lastN_reverse_take (k : Nat) (l : List α) :
    (l.reverse.take k).reverse = lastN k l := by
  rw [List.take_reverse, List.reverse_reverse]
  rfl

/-! ## Sliding windows of a whole list

Embedding of the Rust slice method windows(W): all contiguous
sub-slices of length W, left to right (none when the list is shorter
than W; W is always at least 1 at every call site). -/

def slidingWindows (W : Nat) : List α → List (List α)
  | [] => []
  | x :: rest =>
    if W ≤ rest.length + 1 then (x :: rest).take W :: slidingWindows W rest else []

theorem slidingWindows_eq_nil (W : Nat) (l : List α) (h : l.length < W) :
    slidingWindows W l = [] := by
  cases l with
  | nil => rfl
  | cons x rest =>
    simp only [List.length_cons] at h
    simp only [slidingWindows]
    rw [if_neg (by omega)]

/-- Splitting lemma: windows of an appended list are the windows of the
first part followed by the windows of the carry (last W - 1 elements of
the first part) glued to the second part. -/
theorem slidingWindows_append (W : Nat) (hW : 1 ≤ W) :
    ∀ (a b : List α), W - 1 ≤ a.length →
      slidingWindows W (a ++ b) =
        slidingWindows W a ++ slidingWindows W (lastN (W - 1) a ++ b)
  | [], b, _ => by
    have h0 : lastN (W - 1) ([] : List α) = [] := by simp [lastN]
    simp [slidingWindows, h0]
  | x :: a, b, ha => by
    by_cases hlen : W ≤ a.length + 1
    · have hx : slidingWindows W (x :: a) =
          (x :: a).take W :: slidingWindows W a := by
        simp [slidingWindows, hlen]
      have hxb : slidingWindows W ((x :: a) ++ b) =
          ((x :: a) ++ b).take W :: slidingWindows W (a ++ b) := by
        simp only [List.cons_append, slidingWindows]
        rw [if_pos (by simp; omega)]
        rfl
      have htake : ((x :: a) ++ b).take W = (x :: a).take W :=
        List.take_append_of_le_length (by simp; omega)
      have hlast : lastN (W - 1) (x :: a) = lastN (W - 1) a :=
        lastN_cons (W - 1) x a (by omega)
      rw [hxb, htake, slidingWindows_append W hW a b (by omega), hx, hlast]
      simp [List.append_eq]
    · have hsmall : (x :: a).length < W := by simp; omega
      rw [slidingWindows_eq_nil W (x :: a) hsmall,
        lastN_of_le (W - 1) (x :: a) (by simp at hsmall ⊢; omega)]
      simp

/-! ## The sliding-window primitive (src/util.rs, buffered_windows)

The Rust function drives a callback over every new window and mutates the
carry buffer; the embedding returns the list of windows passed to the
callback (in call order) together with the final carry buffer. -/

def bufferedWindows (W : Nat) : List α → List α → List (List α) × List α
  | buffer, [] => ([], buffer)
  | buffer, x :: rest =>
    if buffer.length < W - 1 then
      bufferedWindows W (buffer ++ [x]) rest
    else
      let input := x :: rest
      let count := min input.length buffer.length
      let filled := buffer ++ input.take count
      let ws1 := slidingWindows W filled
      let ws2 := slidingWindows W input
      let newBuffer := ((input.reverse ++ buffer.reverse).take buffer.length).reverse
      (ws1 ++ ws2, newBuffer)

/-- Driving the primitive chunk by chunk from an empty carry buffer,
accumulating every window reported. -/
def driveChunks (W : Nat) (chunks : List (List α)) : List (List α) × List α :=
  chunks.foldl
    (fun acc chunk =>
      ((acc.1 ++ (bufferedWindows W acc.2 chunk).1), (bufferedWindows W acc.2 chunk).2))
    ([], [])

/-- Windows of the carry glued to the first min (length c) (W - 1) chunk
elements, followed by windows of the chunk alone, cover exactly the
windows of carry ++ chunk. -/
theorem windows_buffer_split (W : Nat) (hW : 1 ≤ W) (b c : List α)
    (hb : b.length = W - 1) :
    slidingWindows W (b ++ c.take (min c.length b.length)) ++ slidingWindows W c =
      slidingWindows W (b ++ c) := by
  by_cases hcl : c.length ≤ W - 1
  · have hmin : min c.length b.length = c.length := by omega
    rw [hmin, List.take_length, slidingWindows_eq_nil W c (by omega), List.append_nil]
  · have hmin : min c.length b.length = W - 1 := by omega
    have htlen : (c.take (W - 1)).length = W - 1 := by
      rw [List.length_take]; omega
    have hsplit := slidingWindows_append W hW (b ++ c.take (W - 1)) (c.drop (W - 1))
      (by simp; omega)
    rw [lastN_append_right (W - 1) b (c.take (W - 1)) htlen, List.append_assoc,
      List.take_append_drop] at hsplit
    rw [hmin, ← hsplit]

/-- One call of the primitive on a carry buffer holding the last W - 1
elements of the history h: the windows reported extend the one-pass
window enumeration of h to that of h ++ c, and the new carry holds the
last W - 1 elements of h ++ c. -/
theorem bufferedWindows_step (W : Nat) (hW : 1 ≤ W) :
    ∀ (c h : List α),
      slidingWindows W h ++ (bufferedWindows W (lastN (W - 1) h) c).1 =
          slidingWindows W (h ++ c)
        ∧ (bufferedWindows W (lastN (W - 1) h) c).2 = lastN (W - 1) (h ++ c)
  | [], h => by simp [bufferedWindows]
  | x :: rest, h => by
    by_cases hfill : h.length < W - 1
    · have hbuf : lastN (W - 1) h = h := lastN_of_le _ _ (by omega)
      have hunfold : bufferedWindows W (lastN (W - 1) h) (x :: rest) =
          bufferedWindows W (h ++ [x]) rest := by
        rw [hbuf]
        simp only [bufferedWindows]
        rw [if_pos hfill]
      have hbuf2 : lastN (W - 1) (h ++ [x]) = h ++ [x] :=
        lastN_of_le _ _ (by simp; omega)
      have ih := bufferedWindows_step W hW rest (h ++ [x])
      rw [hbuf2] at ih
      have hswh : slidingWindows W h = [] := slidingWindows_eq_nil W h (by omega)
      have hswhx : slidingWindows W (h ++ [x]) = [] :=
        slidingWindows_eq_nil W _ (by simp; omega)
      refine ⟨?_, ?_⟩
      · rw [hunfold, hswh]
        have h1 := ih.1
        rw [hswhx] at h1
        simp only [List.nil_append, List.append_assoc, List.singleton_append] at h1 ⊢
        exact h1
      · rw [hunfold]
        have h2 := ih.2
        rw [List.append_assoc, List.singleton_append] at h2
        exact h2
    · have hble : (lastN (W - 1) h).length = W - 1 := by
        rw [lastN_length]; omega
      have hcond : ¬ (lastN (W - 1) h).length < W - 1 := by omega
      have hunfold : bufferedWindows W (lastN (W - 1) h) (x :: rest) =
          (slidingWindows W
              (lastN (W - 1) h ++ (x :: rest).take (min (x :: rest).length (lastN (W - 1) h).length))
            ++ slidingWindows W (x :: rest),
           (((x :: rest).reverse ++ (lastN (W - 1) h).reverse).take (lastN (W - 1) h).length).reverse) := by
        simp only [bufferedWindows]
        rw [if_neg hcond]
      have hglue := windows_buffer_split W hW (lastN (W - 1) h) (x :: rest) hble
      have happ := slidingWindows_append W hW h (x :: rest) (by omega)
      have hdecomp : h ++ (x :: rest) =
          h.take (h.length - (W - 1)) ++ (lastN (W - 1) h ++ (x :: rest)) := by
        rw [← List.append_assoc]
        have hta : h.take (h.length - (W - 1)) ++ lastN (W - 1) h = h := by
          simpa [lastN] using List.take_append_drop (h.length - (W - 1)) h
        rw [hta]
      refine ⟨?_, ?_⟩
      · rw [hunfold, hglue, happ]
      · rw [hunfold, hdecomp,
          lastN_append_of_le (W - 1) (h.take (h.length - (W - 1)))
            (lastN (W - 1) h ++ (x :: rest)) (by rw [List.length_append, hble]; omega)]
        show (((x :: rest).reverse ++ (lastN (W - 1) h).reverse).take
              (lastN (W - 1) h).length).reverse
            = lastN (W - 1) (lastN (W - 1) h ++ (x :: rest))
        rw [← List.reverse_append, lastN_reverse_take, hble]

/-- C1 invariant over a list of chunks, starting from an arbitrary
already processed history. -/
theorem driveChunks_acc (W : Nat) (hW : 1 ≤ W) :
    ∀ (chunks : List (List α)) (h : List α),
      List.foldl
          (fun acc chunk =>
            ((acc.1 ++ (bufferedWindows W acc.2 chunk).1), (bufferedWindows W acc.2 chunk).2))
          (slidingWindows W h, lastN (W - 1) h) chunks
        = (slidingWindows W (h ++ chunks.flatten), lastN (W - 1) (h ++ chunks.flatten))
  | [], h => by simp
  | c :: cs, h => by
    have step := bufferedWindows_step W hW c h
    simp only [List.foldl_cons]
    rw [step.1, step.2, driveChunks_acc W hW cs (h ++ c)]
    simp [List.append_assoc]

/-- C1: for every window size W at least 1 and every way of splitting an
input into successive chunks, driving buffered_windows chunk by chunk
from an empty carry buffer reports exactly the one-pass enumeration of
all length-W windows of the concatenated input, in the same left-to-right
order, and leaves the carry buffer holding exactly the last
min (W - 1) (total length) elements of the stream. Applying the theorem
to a prefix of the chunk list gives the carry-buffer contents after each
intermediate call. -/
theorem buffered_windows_chunking (W : Nat) (hW : 1 ≤ W) (chunks : List (List α)) :
    driveChunks W chunks = (slidingWindows W chunks.flatten, lastN (W - 1) chunks.flatten)
      ∧ (driveChunks W chunks).2.length = min (W - 1) chunks.flatten.length := by
  have hnil : (([], []) : List (List α) × List α)
      = (slidingWindows W ([] : List α), lastN (W - 1) ([] : List α)) := by
    simp [slidingWindows, lastN]
  have hmain : driveChunks W chunks
      = (slidingWindows W chunks.flatten, lastN (W - 1) chunks.flatten) := by
    rw [driveChunks, hnil, driveChunks_acc W hW chunks []]
    simp
  exact ⟨hmain, by rw [hmain, lastN_length]⟩

/-- C1 witness: a concrete chunking of the stream 1 2 3 4 5 with window
size 3. -/
theorem buffered_windows_chunking_witness :
    driveChunks 3 [[1], [2, 3], [], [4, 5]]
      = (slidingWindows 3 ([[1], [2, 3], [], [4, 5]] : List (List Nat)).flatten,
         lastN 2 ([[1], [2, 3], [], [4, 5]] : List (List Nat)).flatten) :=
  (buffered_windows_chunking 3 (by decide) [[1], [2, 3], [], [4, 5]]).1

/-! ## usize arithmetic -/

def USIZE_MAX : Nat := 2 ^ 64 - 1

/-- usize saturating addition. -/
def satAdd (a b : Nat) : Nat := min (a + b) USIZE_MAX

/-! ## Association-list lookup, shared by the map embeddings -/

def alookup [DecidableEq K] (k : K) : List (K × V) → Option V
  | [] => none
  | (k1, v) :: rest => if k = k1 then some v else alookup k rest

/-! ## Ordering helpers -/

theorem then_eq_eq_iff (o p : Ordering) :
    o.then p = .eq ↔ o = .eq ∧ p = .eq := by
  cases o <;> cases p <;> simp [Ordering.then]

theorem then_eq_lt_iff (o p : Ordering) :
    o.then p = .lt ↔ o = .lt ∨ (o = .eq ∧ p = .lt) := by
  cases o <;> cases p <;> simp [Ordering.then]

theorem then_swap (o p : Ordering) : (o.then p).swap = o.swap.then p.swap := by
  cases o <;> rfl

theorem nat_compare_swap (a b : Nat) : (compare a b).swap = compare b a := by
  rcases Nat.lt_trichotomy a b with h | h | h
  · rw [Nat.compare_eq_lt.2 h, Nat.compare_eq_gt.2 h]
    rfl
  · subst h
    rw [Nat.compare_eq_eq.2 rfl]
    rfl
  · rw [Nat.compare_eq_gt.2 h, Nat.compare_eq_lt.2 h]
    rfl

/-! ## The Huffman tree (src/huffman.rs) -/

namespace Huffman

/-- huffman::Node: a leaf owning one byte, or an internal node owning a
left and a right child. -/
inductive Node where
  | leaf : Nat → Node
  | node : Node → Node → Node
deriving DecidableEq, Repr

/-- The derived Ord on huffman::Node: the Leaf variant ranks before the
Node variant, two leaves rank by byte value ascending, two internal
nodes rank by their left children first, then their right children. -/
def Node.cmp : Node → Node → Ordering
  | .leaf a, .leaf b => compare a b
  | .leaf _, .node _ _ => .lt
  | .node _ _, .leaf _ => .gt
  | .node l1 r1, .node l2 r2 => (Node.cmp l1 l2).then (Node.cmp r1 r2)

/-- huffman::WeightedNode. -/
structure WeightedNode where
  weight : Nat
  node : Node
deriving DecidableEq, Repr

/-- The derived Ord on huffman::WeightedNode: weight first, node second. -/
def WeightedNode.cmp (a b : WeightedNode) : Ordering :=
  (compare a.weight b.weight).then (a.node.cmp b.node)

/-- huffman::WeightedItem with its default type argument u8. -/
structure WeightedItem where
  weight : Nat
  item : Nat
deriving DecidableEq, Repr

theorem Node.cmp_eq_eq_iff : ∀ a b : Node, a.cmp b = .eq ↔ a = b
  | .leaf a, .leaf b => by simp [Node.cmp, Nat.compare_eq_eq]
  | .leaf _, .node _ _ => by simp [Node.cmp]
  | .node _ _, .leaf _ => by simp [Node.cmp]
  | .node l1 r1, .node l2 r2 => by
    simp [Node.cmp, then_eq_eq_iff, Node.cmp_eq_eq_iff l1 l2, Node.cmp_eq_eq_iff r1 r2]

theorem Node.cmp_swap : ∀ a b : Node, (a.cmp b).swap = b.cmp a
  | .leaf a, .leaf b => by simp [Node.cmp, nat_compare_swap]
  | .leaf _, .node _ _ => rfl
  | .node _ _, .leaf _ => rfl
  | .node l1 r1, .node l2 r2 => by
    simp [Node.cmp, then_swap, Node.cmp_swap l1 l2, Node.cmp_swap r1 r2]

theorem Node.cmp_lt_trans :
    ∀ a b c : Node, a.cmp b = .lt → b.cmp c = .lt → a.cmp c = .lt
  | .leaf a, .leaf b, .leaf c => by
    simp only [Node.cmp, Nat.compare_eq_lt]
    omega
  | .leaf _, .leaf _, .node _ _ => by intro _ _; rfl
  | .leaf _, .node _ _, .leaf _ => by
    intro _ h2
    simp [Node.cmp] at h2
  | .leaf _, .node _ _, .node _ _ => by intro _ _; rfl
  | .node _ _, .leaf _, _ => by
    intro h1 _
    simp [Node.cmp] at h1
  | .node _ _, .node _ _, .leaf _ => by
    intro _ h2
    simp [Node.cmp] at h2
  | .node l1 r1, .node l2 r2, .node l3 r3 => by
    intro h1 h2
    simp only [Node.cmp, then_eq_lt_iff] at h1 h2 ⊢
    rcases h1 with h1 | ⟨h1e, h1r⟩
    · rcases h2 with h2 | ⟨h2e, h2r⟩
      · exact Or.inl (Node.cmp_lt_trans l1 l2 l3 h1 h2)
      · rw [Node.cmp_eq_eq_iff] at h2e
        subst h2e
        exact Or.inl h1
    · rw [Node.cmp_eq_eq_iff] at h1e
      subst h1e
      rcases h2 with h2 | ⟨h2e, h2r⟩
      · exact Or.inl h2
      · rw [Node.cmp_eq_eq_iff] at h2e
        subst h2e
        exact Or.inr ⟨(Node.cmp_eq_eq_iff _ _).2 rfl, Node.cmp_lt_trans r1 r2 r3 h1r h2r⟩

theorem WeightedNode.wcmp_eq_eq_iff (a b : WeightedNode) : a.cmp b = .eq ↔ a = b := by
  cases a with
  | mk wa na =>
    cases b with
    | mk wb nb =>
      simp [WeightedNode.cmp, then_eq_eq_iff, Nat.compare_eq_eq, Node.cmp_eq_eq_iff]

theorem WeightedNode.cmp_refl (a : WeightedNode) : a.cmp a = .eq :=
  (WeightedNode.wcmp_eq_eq_iff a a).2 rfl

theorem WeightedNode.wcmp_swap (a b : WeightedNode) : (a.cmp b).swap = b.cmp a := by
  simp [WeightedNode.cmp, then_swap, nat_compare_swap, Node.cmp_swap]

theorem WeightedNode.wcmp_lt_trans (a b c : WeightedNode)
    (h1 : a.cmp b = .lt) (h2 : b.cmp c = .lt) : a.cmp c = .lt := by
  simp only [WeightedNode.cmp, then_eq_lt_iff, Nat.compare_eq_lt, Nat.compare_eq_eq]
    at h1 h2 ⊢
  rcases h1 with h1 | ⟨h1e, h1r⟩
  · rcases h2 with h2 | ⟨h2e, h2r⟩
    · exact Or.inl (by omega)
    · exact Or.inl (by omega)
  · rcases h2 with h2 | ⟨h2e, h2r⟩
    · exact Or.inl (by omega)
    · exact Or.inr ⟨by omega, Node.cmp_lt_trans _ _ _ h1r h2r⟩

theorem WeightedNode.not_gt_iff (a b : WeightedNode) :
    a.cmp b ≠ .gt ↔ a.cmp b = .lt ∨ a = b := by
  rcases hc : a.cmp b with _ | _ | _ <;>
    simp_all [← WeightedNode.wcmp_eq_eq_iff a b]

theorem WeightedNode.le_trans (a b c : WeightedNode)
    (h1 : a.cmp b ≠ .gt) (h2 : b.cmp c ≠ .gt) : a.cmp c ≠ .gt := by
  rw [WeightedNode.not_gt_iff] at h1 h2 ⊢
  rcases h1 with h1 | rfl
  · rcases h2 with h2 | rfl
    · exact Or.inl (WeightedNode.wcmp_lt_trans a b c h1 h2)
    · exact Or.inl h1
  · rcases h2 with h2 | rfl
    · exact Or.inl h2
    · exact Or.inr rfl

theorem WeightedNode.le_antisymm (a b : WeightedNode)
    (h1 : a.cmp b ≠ .gt) (h2 : b.cmp a ≠ .gt) : a = b := by
  rw [WeightedNode.not_gt_iff] at h1 h2
  rcases h1 with h1 | rfl
  · rcases h2 with h2 | rfl
    · have := WeightedNode.wcmp_swap a b
      rw [h1, h2] at this
      cases this
    · rfl
  · rfl

/-! The binary heap of Reverse WeightedNode: pop removes a minimum
entry of the collection under the derived order (BinaryHeap pop returns
the greatest entry; Reverse inverts the order). -/

/-- Remove a minimal element under WeightedNode.cmp. -/
def popMin : List WeightedNode → Option (WeightedNode × List WeightedNode)
  | [] => none
  | x :: rest =>
    match popMin rest with
    | none => some (x, [])
    | some (m, rest1) =>
      if WeightedNode.cmp m x = .lt then some (m, x :: rest1) else some (x, rest)

theorem popMin_eq_none_iff (l : List WeightedNode) : popMin l = none ↔ l = [] := by
  cases l with
  | nil => simp [popMin]
  | cons x rest =>
    simp only [popMin]
    rcases popMin rest with _ | ⟨m, rest1⟩
    · simp
    · simp only []
      split <;> simp

theorem popMin_perm :
    ∀ (l : List WeightedNode) (a : WeightedNode) (r : List WeightedNode),
      popMin l = some (a, r) → l.Perm (a :: r)
  | [], a, r => by simp [popMin]
  | x :: rest, a, r => by
    intro h
    simp only [popMin] at h
    rcases hrest : popMin rest with _ | ⟨m, rest1⟩
    · simp only [hrest] at h
      rw [(popMin_eq_none_iff rest).1 hrest]
      cases h
      exact List.Perm.refl _
    · simp only [hrest] at h
      have ih := popMin_perm rest m rest1 hrest
      by_cases hlt : WeightedNode.cmp m x = .lt
      · rw [if_pos hlt] at h
        cases h
        exact (ih.cons x).trans (List.Perm.swap a x rest1)
      · rw [if_neg hlt] at h
        cases h
        exact List.Perm.refl _

theorem popMin_length (l : List WeightedNode) (a : WeightedNode)
    (r : List WeightedNode) (h : popMin l = some (a, r)) :
    r.length + 1 = l.length := by
  have := (popMin_perm l a r h).length_eq
  simpa using this.symm

theorem popMin_min :
    ∀ (l : List WeightedNode) (a : WeightedNode) (r : List WeightedNode),
      popMin l = some (a, r) → ∀ b ∈ l, a.cmp b ≠ .gt
  | [], a, r => by simp [popMin]
  | x :: rest, a, r => by
    intro h b hb
    simp only [popMin] at h
    rcases hrest : popMin rest with _ | ⟨m, rest1⟩
    · simp only [hrest] at h
      cases h
      rw [(popMin_eq_none_iff rest).1 hrest] at hb
      simp at hb
      subst hb
      simp [WeightedNode.cmp_refl]
    · simp only [hrest] at h
      have ih := popMin_min rest m rest1 hrest
      by_cases hlt : WeightedNode.cmp m x = .lt
      · rw [if_pos hlt] at h
        cases h
        rcases List.mem_cons.1 hb with rfl | hb2
        · simp [hlt]
        · exact ih b hb2
      · rw [if_neg hlt] at h
        cases h
        have hxm : x.cmp m ≠ .gt := by
          intro hgt
          have hs := WeightedNode.wcmp_swap x m
          rw [hgt] at hs
          exact hlt hs.symm
        rcases List.mem_cons.1 hb with rfl | hb2
        · simp [WeightedNode.cmp_refl]
        · exact WeightedNode.le_trans x m b hxm (ih b hb2)

/-- The loop of huffman::Node::new: while more than one entry remains,
pop the two lowest-ranked entries, combine them (first popped on the
left), push the combination back; finally pop the root. -/
def combineAll (heap : List WeightedNode) : Option WeightedNode :=
  match hp : popMin heap with
  | none => none
  | some (a, rest) =>
    match hq : popMin rest with
    | none => some a
    | some (b, rest2) =>
      combineAll (⟨satAdd a.weight b.weight, .node a.node b.node⟩ :: rest2)
termination_by heap.length
decreasing_by
  have h1 := popMin_length heap a rest hp
  have h2 := popMin_length rest b rest2 hq
  simp only [List.length_cons]
  omega

theorem combineAll_of_none (heap : List WeightedNode)
    (hp : popMin heap = none) : combineAll heap = none := by
  rw [combineAll.eq_def]
  split <;> simp_all

theorem combineAll_of_single (heap : List WeightedNode) (a : WeightedNode)
    (hp : popMin heap = some (a, [])) : combineAll heap = some a := by
  rw [combineAll.eq_def]
  split
  · simp_all
  · rename_i a1 rest1 hp1
    rw [hp] at hp1
    cases hp1
    split
    · rfl
    · rename_i b rest2 hq
      simp [popMin] at hq

theorem combineAll_of_two (heap : List WeightedNode) (a b : WeightedNode)
    (rest rest2 : List WeightedNode)
    (hp : popMin heap = some (a, rest)) (hq : popMin rest = some (b, rest2)) :
    combineAll heap
      = combineAll (⟨satAdd a.weight b.weight, .node a.node b.node⟩ :: rest2) := by
  rw [combineAll.eq_def]
  split
  · simp_all
  · rename_i a1 rest1 hp1
    rw [hp] at hp1
    cases hp1
    split
    · rename_i hq1
      rw [hq] at hq1
      cases hq1
    · rename_i b1 rest3 hq1
      rw [hq] at hq1
      cases hq1
      rfl

/-- The popped entry of two permuted heaps is the same, and the remaining
heaps are again permutations. -/
theorem popMin_of_perm (l1 l2 : List WeightedNode) (hperm : l1.Perm l2)
    (a1 a2 : WeightedNode) (r1 r2 : List WeightedNode)
    (h1 : popMin l1 = some (a1, r1)) (h2 : popMin l2 = some (a2, r2)) :
    a1 = a2 ∧ r1.Perm r2 := by
  have hmem1 : a1 ∈ l1 := by
    have := (popMin_perm l1 a1 r1 h1).mem_iff (a := a1)
    simp at this
    exact this
  have hmem2 : a2 ∈ l2 := by
    have := (popMin_perm l2 a2 r2 h2).mem_iff (a := a2)
    simp at this
    exact this
  have hle1 : a1.cmp a2 ≠ .gt :=
    popMin_min l1 a1 r1 h1 a2 (hperm.mem_iff.2 hmem2)
  have hle2 : a2.cmp a1 ≠ .gt :=
    popMin_min l2 a2 r2 h2 a1 (hperm.mem_iff.1 hmem1)
  have heq : a1 = a2 := WeightedNode.le_antisymm a1 a2 hle1 hle2
  subst heq
  refine ⟨rfl, ?_⟩
  have hp1 := (popMin_perm l1 a1 r1 h1).symm.trans (hperm.trans (popMin_perm l2 a1 r2 h2))
  exact hp1.cons_inv

/-- C2 core: the combine loop is invariant under permutation of the
initial heap contents. -/
theorem combineAll_perm_aux :
    ∀ (n : Nat) (l1 l2 : List WeightedNode), l1.length ≤ n → l1.Perm l2 →
      combineAll l1 = combineAll l2
  | n, l1, l2 => by
    intro hlen hperm
    rcases h1 : popMin l1 with _ | ⟨a1, r1⟩
    · rcases h2 : popMin l2 with _ | ⟨a2, r2⟩
      · rw [combineAll_of_none l1 h1, combineAll_of_none l2 h2]
      · rw [(popMin_eq_none_iff l1).1 h1] at hperm
        rw [(popMin_eq_none_iff l2).2 hperm.symm.eq_nil] at h2
        cases h2
    · rcases h2 : popMin l2 with _ | ⟨a2, r2⟩
      · rw [(popMin_eq_none_iff l2).1 h2] at hperm
        rw [(popMin_eq_none_iff l1).2 hperm.eq_nil] at h1
        cases h1
      · obtain ⟨rfl, hr⟩ := popMin_of_perm l1 l2 hperm a1 a2 r1 r2 h1 h2
        rcases hq1 : popMin r1 with _ | ⟨b1, s1⟩
        · rcases hq2 : popMin r2 with _ | ⟨b2, s2⟩
          · rw [combineAll_of_single l1 a1 (by rw [h1, (popMin_eq_none_iff r1).1 hq1]),
              combineAll_of_single l2 a1 (by rw [h2, (popMin_eq_none_iff r2).1 hq2])]
          · rw [(popMin_eq_none_iff r1).1 hq1] at hr
            rw [(popMin_eq_none_iff r2).2 hr.symm.eq_nil] at hq2
            cases hq2
        · rcases hq2 : popMin r2 with _ | ⟨b2, s2⟩
          · rw [(popMin_eq_none_iff r2).1 hq2] at hr
            rw [(popMin_eq_none_iff r1).2 hr.eq_nil] at hq1
            cases hq1
          · obtain ⟨rfl, hs⟩ := popMin_of_perm r1 r2 hr b1 b2 s1 s2 hq1 hq2
            rw [combineAll_of_two l1 a1 b1 r1 s1 h1 hq1,
              combineAll_of_two l2 a1 b1 r2 s2 h2 hq2]
            match n, hlen with
            | 0, hlen =>
              have hnil : l1 = [] := by
                cases l1
                · rfl
                · simp at hlen
              rw [hnil] at h1
              simp [popMin] at h1
            | n + 1, hlen =>
              apply combineAll_perm_aux n
              · have hl1 := popMin_length l1 a1 r1 h1
                have hl2 := popMin_length r1 b1 s1 hq1
                simp only [List.length_cons]
                omega
              · exact hs.cons _

theorem combineAll_perm (l1 l2 : List WeightedNode) (hperm : l1.Perm l2) :
    combineAll l1 = combineAll l2 :=
  combineAll_perm_aux l1.length l1 l2 (Nat.le_refl _) hperm

/-- huffman::Node::new: seed the heap with one leaf per weighted item,
run the combine loop, return the root (None for an empty input). -/
def Node.new (items : List WeightedItem) : Option Node :=
  (combineAll (items.map fun it => ⟨it.weight, Node.leaf it.item⟩)).map
    WeightedNode.node

/-- huffman::Node::iter: depth-first traversal pushing a 0 bit when
descending left and a 1 bit when descending right; at each leaf the
accumulated prefix is reversed before being emitted with the byte. -/
def Node.codes : Node → List Bool → List (List Bool × Nat)
  | .leaf b, pref => [(pref.reverse, b)]
  | .node l r, pref => Node.codes l (pref ++ [false]) ++ Node.codes r (pref ++ [true])

/-- huffman::Node::encoding: the traversal collected into a byte-to-bits
map. -/
def Node.encoding (n : Node) : List (Nat × List Bool) :=
  (n.codes []).map fun p => (p.2, p.1)

/-- Modelled from the spec: the code table as section 4.3 words it,
recording at each leaf the bits in the order they were appended while
descending, root bit first, with no reversal. Stated only to compare the
source traversal against the claimed transmission order. -/
def specDescentCodes : Node → List Bool → List (List Bool × Nat)
  | .leaf b, pref => [(pref, b)]
  | .node l r, pref =>
      specDescentCodes l (pref ++ [false]) ++ specDescentCodes r (pref ++ [true])

theorem codes_eq_spec_reverse :
    ∀ (n : Node) (pref : List Bool),
      n.codes pref = (specDescentCodes n pref).map fun p => (p.1.reverse, p.2)
  | .leaf b, pref => by simp [Node.codes, specDescentCodes]
  | .node l r, pref => by
    simp [Node.codes, specDescentCodes, codes_eq_spec_reverse l (pref ++ [false]),
      codes_eq_spec_reverse r (pref ++ [true])]

/-- huffman::Decoder. -/
structure Decoder where
  depth : Nat
  trees : List (List Nat × Node)
deriving DecidableEq, Repr

/-- huffman::Encoder. -/
structure Encoder where
  depth : Nat
  prefixes : List (List Nat × List (Nat × List Bool))
deriving DecidableEq, Repr

/-- Encoder::new from a Decoder: one code table per context tree. -/
def Encoder.new (d : Decoder) : Encoder :=
  ⟨d.depth, d.trees.map fun p => (p.1, p.2.encoding)⟩

/-- Encoder::encode: look up the context, then the byte. -/
def Encoder.encode (e : Encoder) (ctx : List Nat) (byte : Nat) : Option (List Bool) :=
  match alookup ctx e.prefixes with
  | none => none
  | some tbl => alookup byte tbl

/-- The state of a bitstream_io BigEndian bit writer over a byte sink:
the fully packed bytes already released (each one as its 8 bits, first
written bit first) and the pending not-yet-full byte. -/
structure BitW where
  bytes : List (List Bool)
  pending : List Bool
deriving DecidableEq, Repr

/-- write_bit: append one bit; a full group of 8 is released as a byte. -/
def writeBit (s : BitW) (b : Bool) : BitW :=
  if s.pending.length + 1 = 8 then ⟨s.bytes ++ [s.pending ++ [b]], []⟩
  else ⟨s.bytes, s.pending ++ [b]⟩

def writeBits (s : BitW) (bits : List Bool) : BitW := bits.foldl writeBit s

/-- All bits written so far, in order of writing. -/
def BitW.stream (s : BitW) : List Bool := s.bytes.flatten ++ s.pending

/-- Modelled from the spec: the flush of the external bit writer releases
the partially filled byte padded with zero bits up to the byte boundary,
and releases nothing when the stream is aligned (section 9 observes the
spurious all-zero byte produced when the seven queued pad bits meet this
padding). This is also exactly the minimum padding contract that claim
C5 states for the composite flush. -/
def bitwFlush (s : BitW) : BitW :=
  if s.pending = [] then s
  else ⟨s.bytes ++ [s.pending ++ List.replicate (8 - s.pending.length) false], []⟩

/-- huffman::Writer state: the carry buffer of the window primitive and
the bit writer. -/
structure HWriter where
  buffer : List Nat
  bw : BitW
deriving DecidableEq, Repr

/-- One window callback of Writer::write: split the window into context
and final byte and look its codeword up. none models the index panic on
an empty window; the caller unwraps the encode result. -/
def encodeWindowBits (e : Encoder) (window : List Nat) : Option (List Bool) :=
  match window with
  | [] => none
  | _ :: _ => e.encode window.dropLast (window.getLastD 0)

/-- Emit the codeword bits of every window, in stored order; none models
the panic of the unwrap on a failed encode. -/
def writeCodes (e : Encoder) (s : BitW) : List (List Nat) → Option BitW
  | [] => some s
  | w :: rest =>
    match encodeWindowBits e w with
    | none => none
    | some bits => writeCodes e (writeBits s bits) rest

/-- Writer::write: drive buffered_windows over the chunk with window
size depth, emit each window codeword, return Ok(buf.len()). -/
def HWriter.write (e : Encoder) (st : HWriter) (buf : List Nat) :
    Option (HWriter × Nat) :=
  match writeCodes e st.bw (bufferedWindows e.depth st.buffer buf).1 with
  | none => none
  | some bw1 => some (⟨(bufferedWindows e.depth st.buffer buf).2, bw1⟩, buf.length)

/-- Writer::flush: write seven zero bits, then flush the bit writer. -/
def HWriter.flush (st : HWriter) : HWriter :=
  ⟨st.buffer, bitwFlush (writeBits st.bw (List.replicate 7 false))⟩

theorem stream_writeBit (s : BitW) (b : Bool) :
    (writeBit s b).stream = s.stream ++ [b] := by
  unfold writeBit BitW.stream
  split <;> simp

theorem stream_writeBits (bits : List Bool) :
    ∀ s : BitW, (writeBits s bits).stream = s.stream ++ bits := by
  induction bits with
  | nil => intro s; simp [writeBits]
  | cons b rest ih =>
    intro s
    have hstep : writeBits s (b :: rest) = writeBits (writeBit s b) rest := rfl
    rw [hstep, ih, stream_writeBit]
    simp

theorem writeCodes_none_iff (e : Encoder) (ws : List (List Nat)) :
    ∀ s : BitW, (writeCodes e s ws = none ↔ ∃ w ∈ ws, encodeWindowBits e w = none) := by
  induction ws with
  | nil => intro s; simp [writeCodes]
  | cons w rest ih =>
    intro s
    simp only [writeCodes]
    rcases hw : encodeWindowBits e w with _ | bits
    · simp [hw]
    · simp only [List.mem_cons]
      rw [ih]
      constructor
      · intro h
        rcases h with ⟨w1, hmem, hfail⟩
        exact ⟨w1, Or.inr hmem, hfail⟩
      · intro h
        rcases h with ⟨w1, hmem | hmem, hfail⟩
        · subst hmem
          rw [hw] at hfail
          cases hfail
        · exact ⟨w1, hmem, hfail⟩

end Huffman

/-- C2: the Huffman tree builder removes heap entries in ascending
(weight, structural-order) rank, the structural order putting any leaf
before any internal node, ordering leaves by byte value ascending and
internal nodes by left child then right child; consequently building
from any enumeration order of the same nonempty weighted symbol set with
distinct symbols yields the identical tree. -/
theorem huffman_build_deterministic (l1 l2 : List Huffman.WeightedItem)
    (hne : l1 ≠ []) (hdist : (l1.map Huffman.WeightedItem.item).Nodup)
    (hperm : l1.Perm l2) :
    Huffman.Node.new l1 = Huffman.Node.new l2
      ∧ ∀ (heap : List Huffman.WeightedNode) (a : Huffman.WeightedNode)
          (r : List Huffman.WeightedNode),
          Huffman.popMin heap = some (a, r) →
            ∀ b ∈ heap, Huffman.WeightedNode.cmp a b ≠ .gt := by
  refine ⟨?_, Huffman.popMin_min⟩
  unfold Huffman.Node.new
  rw [Huffman.combineAll_perm _ _ (hperm.map _)]

/-- C2 witness: two enumeration orders of a three-symbol weighted set
with a weight tie between bytes 5 and 3. -/
theorem huffman_build_deterministic_witness :
    Huffman.Node.new [⟨1, 5⟩, ⟨1, 3⟩, ⟨2, 7⟩]
      = Huffman.Node.new [⟨2, 7⟩, ⟨1, 3⟩, ⟨1, 5⟩] :=
  (huffman_build_deterministic [⟨1, 5⟩, ⟨1, 3⟩, ⟨2, 7⟩] [⟨2, 7⟩, ⟨1, 3⟩, ⟨1, 5⟩]
    (by decide) (by decide) (by decide)).1

/-- C9: a single-symbol weighted set builds a bare leaf (the combine
loop is never entered) and the derived code table maps that byte to the
zero-length codeword, so encoding the symbol appends no bits. -/
theorem single_symbol_leaf_code (w b : Nat) :
    Huffman.Node.new [⟨w, b⟩] = some (.leaf b)
      ∧ (Huffman.Node.new [⟨w, b⟩]).map (fun t => alookup b t.encoding)
          = some (some [])
      ∧ ∀ s : Huffman.BitW, Huffman.writeBits s [] = s := by
  have h1 : Huffman.Node.new [⟨w, b⟩] = some (.leaf b) := by
    unfold Huffman.Node.new
    rw [Huffman.combineAll_of_single _ ⟨w, .leaf b⟩ (by simp [Huffman.popMin])]
    rfl
  refine ⟨h1, ?_, fun s => rfl⟩
  rw [h1]
  simp [Huffman.Node.encoding, Huffman.Node.codes, alookup]

/-- C4 counterexample: in the tree with leaves 0 and 1 under the left
child and leaf 2 on the right, the descent path of byte 1 is 0 then 1,
but the stored codeword and the bits the streaming writer emits for it
are 1 then 0 — the reversal, not the root-first descent order the claim
states. -/
theorem encoding_root_first_counterexample :
    alookup 1 (Huffman.Node.encoding (.node (.node (.leaf 0) (.leaf 1)) (.leaf 2)))
        = some [true, false]
      ∧ Huffman.specDescentCodes (.node (.node (.leaf 0) (.leaf 1)) (.leaf 2)) []
          = [([false, false], 0), ([false, true], 1), ([true], 2)]
      ∧ (Huffman.writeCodes
            ⟨1, [([], Huffman.Node.encoding (.node (.node (.leaf 0) (.leaf 1)) (.leaf 2)))]⟩
            ⟨[], []⟩ [[1]]).map Huffman.BitW.stream = some [true, false]
      ∧ [true, false] ≠ [false, true] := by
  refine ⟨rfl, rfl, ?_, by decide⟩
  rfl

/-- C4 amended: the code table is derived by the depth-first traversal
appending a 0 bit descending left and a 1 bit descending right, but each
stored codeword is the reversal of its descent path, and the streaming
writer appends the stored bits in stored order — so the deepest bit is
transmitted first and the root bit last, not root first. -/
theorem encoding_reversed_descent :
    (∀ (n : Huffman.Node) (pref : List Bool),
        n.codes pref
          = (Huffman.specDescentCodes n pref).map fun p => (p.1.reverse, p.2))
      ∧ ∀ (s : Huffman.BitW) (bits : List Bool),
          (Huffman.writeBits s bits).stream = s.stream ++ bits :=
  ⟨Huffman.codes_eq_spec_reverse, fun s bits => Huffman.stream_writeBits bits s⟩

/-- C5: the source flush always writes seven zero bits and then flushes
the byte-aligned sink. Evaluated at a byte-aligned writer (one full byte
written, nothing pending): the code emits a spurious extra all-zero
byte, while the minimum-padding flush the claim states releases
nothing. -/
theorem flush_fixed_padding :
    (Huffman.HWriter.flush
        ⟨[], ⟨[[true, true, true, true, true, true, true, true]], []⟩⟩).bw
        = ⟨[[true, true, true, true, true, true, true, true],
            [false, false, false, false, false, false, false, false]], []⟩
      ∧ Huffman.bitwFlush ⟨[[true, true, true, true, true, true, true, true]], []⟩
          = ⟨[[true, true, true, true, true, true, true, true]], []⟩ := by
  constructor
  · rfl
  · rfl

/-- C6 counterexample: an encoder trained on nothing (no contexts). The
encode lookup itself reports the failure as a value, but Writer::write
unwraps it: feeding one byte panics (modelled as none) instead of
returning an explicit error value to the caller. -/
theorem writer_panics_on_unknown :
    (⟨1, []⟩ : Huffman.Encoder).encode [] 0 = none
      ∧ Huffman.HWriter.write ⟨1, []⟩ ⟨[], ⟨[], []⟩⟩ [0] = none := by
  constructor
  · rfl
  · rfl

/-- C6 amended: encode fails exactly when the context was never observed
(UnknownContext: no code table for the context) or the byte was never
observed under it (UnknownSymbol: no codeword in that table), and
returns the codeword when both were observed; the Encoder returns this
failure as a value to its caller, but the streaming writer does not
propagate it as an error — it panics on any failing window, and
otherwise always returns Ok(buf.len()). -/
theorem encode_failure_semantics :
    (∀ (e : Huffman.Encoder) (ctx : List Nat) (byte : Nat),
        e.encode ctx byte = none ↔
          alookup ctx e.prefixes = none
            ∨ ∃ tbl, alookup ctx e.prefixes = some tbl ∧ alookup byte tbl = none)
      ∧ (∀ (e : Huffman.Encoder) (ctx : List Nat) (byte : Nat)
            (tbl : List (Nat × List Bool)) (bits : List Bool),
          alookup ctx e.prefixes = some tbl → alookup byte tbl = some bits →
            e.encode ctx byte = some bits)
      ∧ ∀ (e : Huffman.Encoder) (st : Huffman.HWriter) (buf : List Nat),
          (Huffman.HWriter.write e st buf = none ↔
            ∃ w ∈ (bufferedWindows e.depth st.buffer buf).1,
              Huffman.encodeWindowBits e w = none)
          ∧ ∀ (st1 : Huffman.HWriter) (n : Nat),
              Huffman.HWriter.write e st buf = some (st1, n) → n = buf.length := by
  refine ⟨?_, ?_, ?_⟩
  · intro e ctx byte
    unfold Huffman.Encoder.encode
    rcases hc : alookup ctx e.prefixes with _ | tbl
    · simp
    · simp only []
      constructor
      · intro h
        exact Or.inr ⟨tbl, rfl, h⟩
      · intro h
        rcases h with h | ⟨tbl1, htbl, hb⟩
        · cases h
        · cases htbl
          exact hb
  · intro e ctx byte tbl bits hc hb
    unfold Huffman.Encoder.encode
    rw [hc]
    exact hb
  · intro e st buf
    constructor
    · unfold Huffman.HWriter.write
      rcases hw : Huffman.writeCodes e st.bw (bufferedWindows e.depth st.buffer buf).1
        with _ | bw1
      · simp only []
        rw [← Huffman.writeCodes_none_iff e _ st.bw]
        simp [hw]
      · simp only []
        rw [← Huffman.writeCodes_none_iff e _ st.bw]
        simp [hw]
    · intro st1 n h
      unfold Huffman.HWriter.write at h
      rcases hw : Huffman.writeCodes e st.bw (bufferedWindows e.depth st.buffer buf).1
        with _ | bw1 <;> rw [hw] at h
      · cases h
      · cases h
        rfl

/-- C6 amended witness: a one-context, one-symbol encoder returns the
codeword for the observed pair. -/
theorem encode_failure_semantics_witness :
    (⟨1, [([], [(0, [true])])]⟩ : Huffman.Encoder).encode [] 0 = some [true] :=
  encode_failure_semantics.2.1 ⟨1, [([], [(0, [true])])]⟩ [] 0 [(0, [true])] [true]
    rfl rfl

/-! ## The Markov trie (src/markov.rs) -/

namespace Markov

/-- markov::Node: a leaf holding an accumulated weight, or an inner node
holding a BTreeMap from byte to child — embedded as an association list
kept sorted by key ascending, matching BTreeMap iteration order. -/
inductive Node where
  | leaf : Nat → Node
  | node : List (Nat × Node) → Node

/-- BTreeMap insert-or-update, keeping keys sorted ascending. -/
def mapInsert (k : Nat) (v : Node) : List (Nat × Node) → List (Nat × Node)
  | [] => [(k, v)]
  | (k1, v1) :: rest =>
    if k < k1 then (k, v) :: (k1, v1) :: rest
    else if k = k1 then (k, v) :: rest
    else (k1, v1) :: mapInsert k v rest

/-- The fold inside Markov::insert: walk the sequence, creating missing
children (an inner node before the last byte, a zero-weight leaf at the
last byte), then saturating-add the weight at the terminal leaf and
return the new total. none models the panics (node_mut unwrap hitting a
leaf, or the unreachable arm hitting an inner node at the end). -/
def insertSeq : Node → List Nat → Nat → Option (Node × Nat)
  | .leaf _, _, _ => none
  | .node _, [], _ => none
  | .node m, [k], w =>
    match (alookup k m).getD (.leaf 0) with
    | .leaf c => some (.node (mapInsert k (.leaf (satAdd c w)) m), satAdd c w)
    | .node _ => none
  | .node m, k :: k1 :: rest, w =>
    match insertSeq ((alookup k m).getD (.node [])) (k1 :: rest) w with
    | none => none
    | some (child, c) => some (.node (mapInsert k child m), c)

/-- The fold inside Markov::get: read-only traversal; a missing child or
a premature leaf gives None. -/
def getSeq : Node → List Nat → Option Node
  | n, [] => some n
  | .leaf _, _ :: _ => none
  | .node m, k :: rest =>
    match alookup k m with
    | none => none
    | some child => getSeq child rest

/-- The weighted children of a depth D - 1 node, in ascending key order;
every child must be a leaf (leaf unwrap). -/
def mapChildren : List (Nat × Node) → Option (List Huffman.WeightedItem)
  | [] => some []
  | (b, c) :: rest =>
    match c with
    | .leaf w => (mapChildren rest).map fun items => ⟨w, b⟩ :: items
    | .node _ => none

mutual

/-- markov::Node::iter_prefix: at remaining length 0 yield the current
prefix together with the weighted children of this node; otherwise
recurse into every child in ascending key order, extending the prefix.
none models the node unwrap panic on a leaf. -/
def iterCtx : Nat → Node → List Nat →
    Option (List (List Nat × List Huffman.WeightedItem))
  | _, .leaf _, _ => none
  | 0, .node m, pref => (mapChildren m).map fun items => [(pref, items)]
  | len + 1, .node m, pref => iterCtxMap len m pref
termination_by len _ _ => (len, 0)

/-- The flat_map over the children inside Node::iter_prefix. -/
def iterCtxMap : Nat → List (Nat × Node) → List Nat →
    Option (List (List Nat × List Huffman.WeightedItem))
  | _, [], _ => some []
  | len, (b, c) :: rest, pref =>
    match iterCtx len c (pref ++ [b]) with
    | none => none
    | some ps =>
      match iterCtxMap len rest pref with
      | none => none
      | some qs => some (ps ++ qs)
termination_by len m _ => (len, m.length + 1)

end

end Markov

/-- markov::SequenceLengthError. -/
structure SequenceLengthError where
deriving DecidableEq, Repr

/-- markov::Markov: the model order and the root of the trie. -/
structure Markov where
  depth : Nat
  root : Markov.Node

/-- Markov::new: an empty trie of the given order. -/
def Markov.new (depth : Nat) : Markov := ⟨depth, .node []⟩

/-- Markov::len. -/
def Markov.len (m : Markov) : Nat := m.depth

/-- Markov::insert. The length check precedes any mutation. The first
component is the post-call state of the &mut receiver; the Except
mirrors the returned Result, and the inner none models the panics,
which cannot fire on a model reached from Markov::new by inserts. -/
def Markov.insert (m : Markov) (sequence : List Nat) (weight : Nat) :
    Markov × Except SequenceLengthError (Option Nat) :=
  if sequence.length ≠ m.depth then (m, .error ⟨⟩)
  else
    match Markov.insertSeq m.root sequence weight with
    | none => (m, .ok none)
    | some (root1, c) => (⟨m.depth, root1⟩, .ok (some c))

/-- Markov::get. -/
def Markov.get (m : Markov) (sequence : List Nat) :
    Except SequenceLengthError (Option Markov.Node) :=
  if sequence.length ≠ m.depth then .error ⟨⟩
  else .ok (Markov.getSeq m.root sequence)

/-- Markov::iter_prefix: iterate the contexts of the whole model,
starting at the root with remaining length depth - 1. -/
def Markov.ctxIter (m : Markov) :
    Option (List (List Nat × List Huffman.WeightedItem)) :=
  Markov.iterCtx (m.depth - 1) m.root []

/-- A fold of insert calls, keeping the returned state each time. -/
def Markov.insertAll (m : Markov) (seqs : List (List Nat × Nat)) : Markov :=
  seqs.foldl (fun acc sw => (acc.insert sw.1 sw.2).1) m

/-- One Huffman tree per yielded context, in yield order. -/
def buildTrees : List (List Nat × List Huffman.WeightedItem) →
    Option (List (List Nat × Huffman.Node))
  | [] => some []
  | (pref, items) :: rest =>
    match Huffman.Node.new items with
    | none => none
    | some t =>
      match buildTrees rest with
      | none => none
      | some ts => some ((pref, t) :: ts)

/-- huffman::Decoder::new: build the per-context tree collection from
the model; none models the unwrap panics (a context iteration panic, or
Node::new returning None on an empty symbol set). -/
def Huffman.Decoder.new (m : Markov) : Option Huffman.Decoder :=
  match Markov.ctxIter m with
  | none => none
  | some pairs =>
    match buildTrees pairs with
    | none => none
    | some ts => some ⟨m.depth, ts⟩

/-- Well-formed subtree expecting d more levels below it: at level 0 a
leaf; above, a nonempty inner node of well-formed children. Every
subtree created by insert satisfies this. -/
def wfNode : Nat → Markov.Node → Prop
  | 0, n => ∃ w, n = .leaf w
  | d + 1, n => ∃ mp, n = .node mp ∧ mp ≠ [] ∧ ∀ e ∈ mp, wfNode d e.2

/-- The reachable-state invariant of a model of order D: the root is an
inner node (possibly empty) whose children are well-formed trees of
height D - 1. -/
def Markov.inv (D : Nat) (m : Markov) : Prop :=
  m.depth = D ∧ ∃ mp, m.root = .node mp ∧ ∀ e ∈ mp, wfNode (D - 1) e.2

namespace Markov

theorem alookup_mapInsert_self (k : Nat) (v : Node) :
    ∀ m : List (Nat × Node), alookup k (mapInsert k v m) = some v
  | [] => by simp [mapInsert, alookup]
  | (k1, v1) :: rest => by
    by_cases h1 : k < k1
    · simp [mapInsert, h1, alookup]
    · by_cases h2 : k = k1
      · simp [mapInsert, h1, h2, alookup]
      · simp [mapInsert, h1, h2, alookup, alookup_mapInsert_self k v rest]

theorem alookup_mapInsert_ne (k k2 : Nat) (v : Node) (hne : k2 ≠ k) :
    ∀ m : List (Nat × Node), alookup k2 (mapInsert k v m) = alookup k2 m
  | [] => by simp [mapInsert, alookup, hne]
  | (k1, v1) :: rest => by
    by_cases h1 : k < k1
    · simp [mapInsert, h1, alookup, hne]
    · by_cases h2 : k = k1
      · subst h2
        simp [mapInsert, h1, alookup, hne]
      · by_cases h3 : k2 = k1
        · simp [mapInsert, h1, h2, alookup, h3]
        · simp [mapInsert, h1, h2, alookup, h3, alookup_mapInsert_ne k k2 v hne rest]

/-- The single path created by inserting a fresh sequence. -/
def pathNode : List Nat → Nat → Node
  | [], w => .leaf w
  | k :: rest, w => .node [(k, pathNode rest w)]

theorem insertSeq_empty :
    ∀ (s : List Nat) (w : Nat), s ≠ [] →
      insertSeq (.node []) s w = some (pathNode s (satAdd 0 w), satAdd 0 w)
  | [], w => by simp
  | [k], w => by
    intro _
    simp [insertSeq, alookup, mapInsert, pathNode]
  | k :: k1 :: rest, w => by
    intro _
    simp only [insertSeq, alookup, Option.getD_none]
    rw [insertSeq_empty (k1 :: rest) w (by simp)]
    simp [mapInsert, pathNode]

theorem insertSeq_path :
    ∀ (s : List Nat) (c0 w : Nat), s ≠ [] →
      insertSeq (pathNode s c0) s w = some (pathNode s (satAdd c0 w), satAdd c0 w)
  | [], _, w => by simp
  | [k], c0, w => by
    intro _
    simp [insertSeq, pathNode, alookup, mapInsert]
  | k :: k1 :: rest, c0, w => by
    intro _
    have hrec := insertSeq_path (k1 :: rest) c0 w (by simp)
    show insertSeq (.node [(k, pathNode (k1 :: rest) c0)]) (k :: k1 :: rest) w
        = some (.node [(k, pathNode (k1 :: rest) (satAdd c0 w))], satAdd c0 w)
    simp [insertSeq, alookup, hrec, mapInsert]

theorem getSeq_path :
    ∀ (s : List Nat) (c : Nat), getSeq (pathNode s c) s = some (.leaf c)
  | [], c => by simp [pathNode, getSeq]
  | k :: rest, c => by
    simp [pathNode, getSeq, alookup, getSeq_path rest c]

/-- After a successful walk, reading the same sequence finds a leaf
holding exactly the returned count. -/
theorem insertSeq_getSeq :
    ∀ (s : List Nat) (n n1 : Node) (w c : Nat),
      insertSeq n s w = some (n1, c) → getSeq n1 s = some (.leaf c)
  | [], n, n1, w, c => by
    intro h
    match n with
    | .leaf _ => simp [insertSeq] at h
    | .node m => simp [insertSeq] at h
  | [k], n, n1, w, c => by
    intro h
    match n with
    | .leaf _ => simp [insertSeq] at h
    | .node m =>
      simp only [insertSeq] at h
      rcases hch : (alookup k m).getD (.leaf 0) with c0 | m2 <;> rw [hch] at h
      · cases h
        simp [getSeq, alookup_mapInsert_self]
      · cases h
  | k :: k1 :: rest, n, n1, w, c => by
    intro h
    match n with
    | .leaf _ => simp [insertSeq] at h
    | .node m =>
      simp only [insertSeq] at h
      rcases hrec : insertSeq ((alookup k m).getD (.node [])) (k1 :: rest) w
        with _ | ⟨child, c2⟩ <;> rw [hrec] at h
      · cases h
      · cases h
        have ih := insertSeq_getSeq (k1 :: rest) _ child w c hrec
        simp [getSeq, alookup_mapInsert_self, ih]

/-- A successful walk along s changes no lookup of a different sequence
of the same length. -/
theorem insertSeq_getSeq_other :
    ∀ (s t : List Nat) (n n1 : Node) (w c : Nat),
      t.length = s.length → t ≠ s → insertSeq n s w = some (n1, c) →
        getSeq n1 t = getSeq n t
  | [], t, n, n1, w, c => by
    intro _ _ h
    match n with
    | .leaf _ => simp [insertSeq] at h
    | .node m => simp [insertSeq] at h
  | [k], t, n, n1, w, c => by
    intro hlen hne h
    match t with
    | [k2] =>
      have hk : k2 ≠ k := by
        intro hk
        exact hne (by rw [hk])
      match n with
      | .leaf _ => simp [insertSeq] at h
      | .node m =>
        simp only [insertSeq] at h
        rcases hch : (alookup k m).getD (.leaf 0) with c0 | m2 <;> rw [hch] at h
        · cases h
          simp [getSeq, alookup_mapInsert_ne k k2 _ hk]
        · cases h
  | k :: k1 :: rest, t, n, n1, w, c => by
    intro hlen hne h
    match t with
    | k2 :: t1 =>
      match n with
      | .leaf _ => simp [insertSeq] at h
      | .node m =>
        simp only [insertSeq] at h
        rcases hrec : insertSeq ((alookup k m).getD (.node [])) (k1 :: rest) w
          with _ | ⟨child, c2⟩ <;> rw [hrec] at h
        · cases h
        · cases h
          by_cases hk : k2 = k
          · subst hk
            have ht1 : t1 ≠ k1 :: rest := by
              intro hcontra
              exact hne (by rw [hcontra])
            have hlen1 : t1.length = (k1 :: rest).length := by
              simp at hlen
              simp [hlen]
            rcases hlook : alookup k2 m with _ | c0
            · rw [hlook, Option.getD_none] at hrec
              have ih := insertSeq_getSeq_other (k1 :: rest) t1 (.node []) child w c
                hlen1 ht1 hrec
              simp [getSeq, alookup_mapInsert_self, hlook, ih]
              match t1 with
              | t2 :: t3 => simp [getSeq, alookup]
            · rw [hlook, Option.getD_some] at hrec
              have ih := insertSeq_getSeq_other (k1 :: rest) t1 c0 child w c
                hlen1 ht1 hrec
              simp [getSeq, alookup_mapInsert_self, hlook, ih]
          · simp [getSeq, alookup_mapInsert_ne k k2 _ hk]

/-- A successful walk never removes an existing path: every sequence
resolvable before the insert is still resolvable after it. -/
theorem insertSeq_preserves :
    ∀ (s : List Nat) (n n1 : Node) (w c : Nat) (p : List Nat),
      insertSeq n s w = some (n1, c) →
        (getSeq n p).isSome → (getSeq n1 p).isSome
  | [], n, n1, w, c, p => by
    intro h
    match n with
    | .leaf _ => simp [insertSeq] at h
    | .node m => simp [insertSeq] at h
  | [k], n, n1, w, c, p => by
    intro h hp
    match n with
    | .leaf _ => simp [insertSeq] at h
    | .node m =>
      simp only [insertSeq] at h
      rcases hch : (alookup k m).getD (.leaf 0) with c0 | m2 <;> rw [hch] at h
      · cases h
        match p with
        | [] => simp [getSeq]
        | p0 :: p1 =>
          by_cases hk : p0 = k
          · subst hk
            rcases hlook : alookup p0 m with _ | child0
            · simp [getSeq, hlook] at hp
            · rw [hlook, Option.getD_some] at hch
              subst hch
              simp only [getSeq, hlook] at hp
              match p1 with
              | [] => simp [getSeq, alookup_mapInsert_self]
              | p2 :: p3 => simp [getSeq] at hp
          · simp only [getSeq, alookup_mapInsert_ne k p0 _ hk]
            simp only [getSeq] at hp
            exact hp
      · cases h
  | k :: k1 :: rest, n, n1, w, c, p => by
    intro h hp
    match n with
    | .leaf _ => simp [insertSeq] at h
    | .node m =>
      simp only [insertSeq] at h
      rcases hrec : insertSeq ((alookup k m).getD (.node [])) (k1 :: rest) w
        with _ | ⟨child, c2⟩ <;> rw [hrec] at h
      · cases h
      · cases h
        match p with
        | [] => simp [getSeq]
        | p0 :: p1 =>
          by_cases hk : p0 = k
          · subst hk
            rcases hlook : alookup p0 m with _ | child0
            · simp [getSeq, hlook] at hp
            · rw [hlook, Option.getD_some] at hrec
              simp only [getSeq, hlook] at hp
              have ih := insertSeq_preserves (k1 :: rest) child0 child w c p1 hrec hp
              simp [getSeq, alookup_mapInsert_self, ih]
          · simp only [getSeq, alookup_mapInsert_ne k p0 _ hk]
            simp only [getSeq] at hp
            exact hp

end Markov

/-- Unpacking a successful Markov::insert call. -/
theorem insert_ok_inv (m m1 : Markov) (s : List Nat) (w c : Nat)
    (h : m.insert s w = (m1, .ok (some c))) :
    s.length = m.depth ∧ m1.depth = m.depth
      ∧ Markov.insertSeq m.root s w = some (m1.root, c) := by
  unfold Markov.insert at h
  by_cases hlen : s.length ≠ m.depth
  · rw [if_pos hlen] at h
    simp at h
  · rw [if_neg hlen] at h
    rcases hrec : Markov.insertSeq m.root s w with _ | ⟨root1, c1⟩ <;> rw [hrec] at h
    · simp at h
    · simp only [Prod.mk.injEq, Except.ok.injEq, Option.some.injEq] at h
      obtain ⟨hm, hc⟩ := h
      subst hc
      subst hm
      exact ⟨by omega, rfl, rfl⟩

/-- A successful inner walk determines the result of Markov::insert. -/
theorem Markov.insert_of_ok (m : Markov) (s : List Nat) (w : Nat)
    (hlen : s.length = m.depth) (root1 : Markov.Node) (c : Nat)
    (hrec : Markov.insertSeq m.root s w = some (root1, c)) :
    m.insert s w = (⟨m.depth, root1⟩, .ok (some c)) := by
  unfold Markov.insert
  rw [if_neg (by omega), hrec]

/-- C3: inserting a fresh length-D sequence with weight w1 (w1 below the
usize ceiling) creates a leaf holding exactly w1, which get returns; a
second insert of w2 returns and stores min (w1 + w2) USIZE_MAX — the
exact sum when it does not exceed the ceiling, the ceiling otherwise —
and in general a successful insert always returns the new accumulated
total of the terminal leaf, as get then confirms. -/
theorem markov_insert_get_weights (D : Nat) (hD : 1 ≤ D) (s : List Nat)
    (hs : s.length = D) (w1 w2 : Nat) (hw1 : w1 ≤ USIZE_MAX) :
    (Markov.new D).insert s w1
        = (⟨D, Markov.pathNode s w1⟩, .ok (some w1))
      ∧ (Markov.mk D (Markov.pathNode s w1)).get s = .ok (some (.leaf w1))
      ∧ (Markov.mk D (Markov.pathNode s w1)).insert s w2
          = (⟨D, Markov.pathNode s (min (w1 + w2) USIZE_MAX)⟩,
             .ok (some (min (w1 + w2) USIZE_MAX)))
      ∧ (Markov.mk D (Markov.pathNode s (min (w1 + w2) USIZE_MAX))).get s
          = .ok (some (.leaf (min (w1 + w2) USIZE_MAX)))
      ∧ (w1 + w2 ≤ USIZE_MAX → min (w1 + w2) USIZE_MAX = w1 + w2)
      ∧ (USIZE_MAX < w1 + w2 → min (w1 + w2) USIZE_MAX = USIZE_MAX)
      ∧ ∀ (M M1 : Markov) (w c : Nat),
          M.insert s w = (M1, .ok (some c)) → M1.get s = .ok (some (.leaf c)) := by
  have hsne : s ≠ [] := by
    intro hnil
    rw [hnil] at hs
    simp at hs
    omega
  have e1 : satAdd 0 w1 = w1 := by
    simp only [satAdd, Nat.zero_add]
    omega
  have e2 : satAdd w1 w2 = min (w1 + w2) USIZE_MAX := rfl
  refine ⟨?_, ?_, ?_, ?_, by omega, by omega, ?_⟩
  · have hrec1 : Markov.insertSeq (Markov.new D).root s w1
        = some (Markov.pathNode s w1, w1) := by
      show Markov.insertSeq (.node []) s w1 = some (Markov.pathNode s w1, w1)
      rw [Markov.insertSeq_empty s w1 hsne, e1]
    exact Markov.insert_of_ok (Markov.new D) s w1 (by simp [Markov.new, hs])
      (Markov.pathNode s w1) w1 hrec1
  · unfold Markov.get
    rw [if_neg (by simp [hs])]
    rw [Markov.getSeq_path s w1]
  · have hrec2 : Markov.insertSeq (Markov.mk D (Markov.pathNode s w1)).root s w2
        = some (Markov.pathNode s (min (w1 + w2) USIZE_MAX),
            min (w1 + w2) USIZE_MAX) := by
      show Markov.insertSeq (Markov.pathNode s w1) s w2 = _
      rw [Markov.insertSeq_path s w1 w2 hsne, e2]
    exact Markov.insert_of_ok (Markov.mk D (Markov.pathNode s w1)) s w2
      (by simp [hs]) _ _ hrec2
  · unfold Markov.get
    rw [if_neg (by simp [hs])]
    rw [Markov.getSeq_path s (min (w1 + w2) USIZE_MAX)]
  · intro M M1 w c hins
    obtain ⟨hlen, hdep1, hrec⟩ := insert_ok_inv M M1 s w c hins
    unfold Markov.get
    rw [if_neg (by omega)]
    rw [Markov.insertSeq_getSeq s M.root M1.root w c hrec]

/-- C3 witness: order 2, sequence 3 7, weights 5 then 6. -/
theorem markov_insert_get_weights_witness :
    (Markov.new 2).insert [3, 7] 5
      = (⟨2, Markov.pathNode [3, 7] 5⟩, .ok (some 5)) :=
  (markov_insert_get_weights 2 (by decide) [3, 7] rfl 5 6 (by decide)).1

/-- C7: for any model of order D and any sequence whose length differs
from D, both insert and get fail with SequenceLengthError, and the
failed insert returns the model unchanged — the error precedes any
mutation. -/
theorem insert_get_length_error (D : Nat) (hD : 1 ≤ D) (m : Markov)
    (hdepth : m.depth = D) (s : List Nat) (hs : s.length ≠ D) (w : Nat) :
    m.insert s w = (m, .error SequenceLengthError.mk)
      ∧ m.get s = .error SequenceLengthError.mk := by
  unfold Markov.insert Markov.get
  rw [hdepth, if_pos hs, if_pos hs]
  exact ⟨rfl, rfl⟩

/-- C7 witness: a length-1 sequence against an order-2 model. -/
theorem insert_get_length_error_witness :
    (Markov.new 2).insert [1] 4 = (Markov.new 2, .error SequenceLengthError.mk) :=
  (insert_get_length_error 2 (by decide) (Markov.new 2) rfl [1] (by decide) 4).1

/-- C10: a successful insert of s changes no lookup of any other
sequence t of the same length, and removes or restructures no existing
node: every path resolvable before stays resolvable after. -/
theorem insert_frame_effect (D : Nat) (hD : 1 ≤ D) (m m1 : Markov)
    (hdepth : m.depth = D) (s t : List Nat) (hs : s.length = D)
    (ht : t.length = D) (hne : t ≠ s) (w c : Nat)
    (hins : m.insert s w = (m1, .ok (some c))) :
    m1.get t = m.get t
      ∧ ∀ p : List Nat, (Markov.getSeq m.root p).isSome →
          (Markov.getSeq m1.root p).isSome := by
  obtain ⟨hlen, hdep1, hrec⟩ := insert_ok_inv m m1 s w c hins
  constructor
  · unfold Markov.get
    rw [hdep1]
    by_cases hlt : t.length ≠ m.depth
    · rw [if_pos hlt, if_pos hlt]
    · rw [if_neg hlt, if_neg hlt]
      rw [Markov.insertSeq_getSeq_other s t m.root m1.root w c (by omega) hne hrec]
  · intro p hp
    exact Markov.insertSeq_preserves s m.root m1.root w c p hrec hp

/-- C10 witness: after inserting 0 1, the lookup of 0 2 is unchanged. -/
theorem insert_frame_effect_witness :
    ((Markov.new 2).insert [0, 1] 5).1.get [0, 2] = (Markov.new 2).get [0, 2] :=
  (insert_frame_effect 2 (by decide) (Markov.new 2) ((Markov.new 2).insert [0, 1] 5).1
    rfl [0, 1] [0, 2] rfl rfl (by decide) 5 5 rfl).1

/-! ## C8: context iteration yields no empty symbol list on reachable
models -/

theorem alookup_mem [DecidableEq K] (k : K) (v : V) :
    ∀ l : List (K × V), alookup k l = some v → (k, v) ∈ l
  | [] => by simp [alookup]
  | (k1, v1) :: rest => by
    simp only [alookup]
    by_cases h : k = k1
    · rw [if_pos h]
      intro hv
      cases hv
      subst h
      simp
    · rw [if_neg h]
      intro hv
      exact List.mem_cons_of_mem _ (alookup_mem k v rest hv)

namespace Markov

theorem mapInsert_ne_nil (k : Nat) (v : Node) :
    ∀ m : List (Nat × Node), mapInsert k v m ≠ []
  | [] => by simp [mapInsert]
  | (k1, v1) :: rest => by
    by_cases h1 : k < k1
    · simp [mapInsert, h1]
    · by_cases h2 : k = k1
      · simp [mapInsert, h1, h2]
      · simp [mapInsert, h1, h2]

theorem mapInsert_mem (k : Nat) (v : Node) :
    ∀ (m : List (Nat × Node)) (e : Nat × Node),
      e ∈ mapInsert k v m → e = (k, v) ∨ e ∈ m
  | [], e => by simp [mapInsert]
  | (k1, v1) :: rest, e => by
    by_cases h1 : k < k1
    · simp only [mapInsert, if_pos h1, List.mem_cons]
      tauto
    · by_cases h2 : k = k1
      · simp only [mapInsert, if_neg h1, if_pos h2, List.mem_cons]
        tauto
      · simp only [mapInsert, if_neg h1, if_neg h2, List.mem_cons]
        intro h
        rcases h with h | h
        · tauto
        · rcases mapInsert_mem k v rest e h with h3 | h3 <;> tauto

/-- A successful walk on a well-formed map of height d with a sequence
of length d + 1 succeeds and keeps the map well formed and nonempty. -/
theorem insertSeq_wf :
    ∀ (s : List Nat) (d : Nat) (mp : List (Nat × Node)) (w : Nat),
      s.length = d + 1 → (∀ e ∈ mp, wfNode d e.2) →
      ∃ mp1 c, insertSeq (.node mp) s w = some (.node mp1, c)
        ∧ mp1 ≠ [] ∧ ∀ e ∈ mp1, wfNode d e.2
  | [], d, mp, w => by simp
  | [k], d, mp, w => by
    intro hlen hwf
    have hd : d = 0 := by simp at hlen; omega
    subst hd
    have hleaf : ∃ c0, (alookup k mp).getD (.leaf 0) = .leaf c0 := by
      rcases hlook : alookup k mp with _ | child
      · exact ⟨0, rfl⟩
      · have hw := hwf (k, child) (alookup_mem k child mp hlook)
        simp only [wfNode] at hw
        obtain ⟨w0, hw0⟩ := hw
        exact ⟨w0, by simp [hw0]⟩
    obtain ⟨c0, hc0⟩ := hleaf
    refine ⟨mapInsert k (.leaf (satAdd c0 w)) mp, satAdd c0 w, ?_, mapInsert_ne_nil k _ mp, ?_⟩
    · simp only [insertSeq, hc0]
    · intro e he
      rcases mapInsert_mem k _ mp e he with rfl | he2
      · simp only [wfNode]
        exact ⟨satAdd c0 w, rfl⟩
      · exact hwf e he2
  | k :: k1 :: rest, d, mp, w => by
    intro hlen hwf
    have hd : d = rest.length + 1 := by simp at hlen; omega
    subst hd
    have hchild : ∃ m2, (alookup k mp).getD (.node []) = .node m2
        ∧ ∀ e ∈ m2, wfNode rest.length e.2 := by
      rcases hlook : alookup k mp with _ | child
      · exact ⟨[], rfl, by simp⟩
      · have hw := hwf (k, child) (alookup_mem k child mp hlook)
        simp only [wfNode] at hw
        obtain ⟨m2, hm2, _, hwf2⟩ := hw
        exact ⟨m2, by simp [hm2], hwf2⟩
    obtain ⟨m2, hm2, hwf2⟩ := hchild
    obtain ⟨m2a, c, hrec, hne2, hwf2a⟩ :=
      insertSeq_wf (k1 :: rest) rest.length m2 w (by simp) hwf2
    refine ⟨mapInsert k (.node m2a) mp, c, ?_, mapInsert_ne_nil k _ mp, ?_⟩
    · simp only [insertSeq, hm2, hrec]
    · intro e he
      rcases mapInsert_mem k _ mp e he with rfl | he2
      · simp only [wfNode]
        exact ⟨m2a, rfl, hne2, hwf2a⟩
      · exact hwf e he2

/-- A successful walk from an inner node returns a nonempty inner
node. -/
theorem insertSeq_node_ne_nil :
    ∀ (s : List Nat) (mp : List (Nat × Node)) (w : Nat) (root1 : Node) (c : Nat),
      insertSeq (.node mp) s w = some (root1, c) →
      ∃ mp1, root1 = .node mp1 ∧ mp1 ≠ []
  | [], mp, w, root1, c => by simp [insertSeq]
  | [k], mp, w, root1, c => by
    intro h
    simp only [insertSeq] at h
    rcases hch : (alookup k mp).getD (.leaf 0) with c0 | m2 <;> rw [hch] at h
    · cases h
      exact ⟨_, rfl, mapInsert_ne_nil k _ mp⟩
    · cases h
  | k :: k1 :: rest, mp, w, root1, c => by
    intro h
    simp only [insertSeq] at h
    rcases hrec : insertSeq ((alookup k mp).getD (.node [])) (k1 :: rest) w
      with _ | ⟨child, c2⟩ <;> rw [hrec] at h
    · cases h
    · cases h
      exact ⟨_, rfl, mapInsert_ne_nil k _ mp⟩

end Markov

/-- Markov::insert preserves the reachable-state invariant. -/
theorem insert_inv (D : Nat) (m : Markov) (hinv : m.inv D) (s : List Nat)
    (w : Nat) : ((m.insert s w).1).inv D := by
  obtain ⟨hdep, mp, hroot, hwfc⟩ := hinv
  unfold Markov.insert
  by_cases hlen : s.length ≠ m.depth
  · rw [if_pos hlen]
    exact ⟨hdep, mp, hroot, hwfc⟩
  · rw [if_neg hlen]
    rcases hrec : Markov.insertSeq m.root s w with _ | ⟨root1, c1⟩
    · exact ⟨hdep, mp, hroot, hwfc⟩
    · by_cases hD : 1 ≤ D
      · obtain ⟨mp1, c, hrec2, hne1, hwf1⟩ :=
          Markov.insertSeq_wf s (D - 1) mp w (by omega) hwfc
        rw [hroot] at hrec
        rw [hrec2] at hrec
        cases hrec
        exact ⟨hdep, mp1, rfl, hwf1⟩
      · have hD0 : D = 0 := by omega
        subst hD0
        have hs0 : s = [] := by
          have : s.length = 0 := by omega
          exact List.length_eq_zero.1 this
        subst hs0
        rw [hroot] at hrec
        simp [Markov.insertSeq] at hrec

/-- insertAll preserves the invariant. -/
theorem insertAll_inv (D : Nat) :
    ∀ (seqs : List (List Nat × Nat)) (m : Markov), m.inv D →
      (m.insertAll seqs).inv D
  | [], m => fun h => h
  | e :: rest, m => by
    intro h
    have hstep := insert_inv D m h e.1 e.2
    exact insertAll_inv D rest (m.insert e.1 e.2).1 hstep

/-- The fresh model satisfies the invariant. -/
theorem new_inv (D : Nat) : (Markov.new D).inv D :=
  ⟨rfl, [], rfl, by simp⟩

/-- insert never empties a nonempty root. -/
theorem insert_root_ne_nil (m : Markov) (s : List Nat) (w : Nat)
    (hne : ∃ mp, m.root = .node mp ∧ mp ≠ []) :
    ∃ mp, ((m.insert s w).1).root = .node mp ∧ mp ≠ [] := by
  obtain ⟨mp, hroot, hne1⟩ := hne
  unfold Markov.insert
  by_cases hlen : s.length ≠ m.depth
  · rw [if_pos hlen]
    exact ⟨mp, hroot, hne1⟩
  · rw [if_neg hlen]
    rcases hrec : Markov.insertSeq m.root s w with _ | ⟨root1, c1⟩
    · exact ⟨mp, hroot, hne1⟩
    · rw [hroot] at hrec
      obtain ⟨mp1, hmp1, hne2⟩ := Markov.insertSeq_node_ne_nil s mp w root1 c1 hrec
      exact ⟨mp1, hmp1, hne2⟩

/-- A length-D insert on an invariant-satisfying model succeeds and
leaves a nonempty root. -/
theorem insert_fills_root (D : Nat) (hD : 1 ≤ D) (m : Markov) (hinv : m.inv D)
    (s : List Nat) (hs : s.length = D) (w : Nat) :
    ∃ mp, ((m.insert s w).1).root = .node mp ∧ mp ≠ [] := by
  obtain ⟨hdep, mp, hroot, hwfc⟩ := hinv
  obtain ⟨mp1, c, hrec, hne1, hwf1⟩ :=
    Markov.insertSeq_wf s (D - 1) mp w (by omega) hwfc
  unfold Markov.insert
  rw [if_neg (by omega)]
  rw [hroot, hrec]
  exact ⟨mp1, rfl, hne1⟩

/-- Driving any insert list over a model keeps a nonempty root, given a
nonempty root now or one guaranteed by a correct-length entry. -/
theorem insertAll_root_ne_nil (D : Nat) (hD : 1 ≤ D) :
    ∀ (seqs : List (List Nat × Nat)) (m : Markov), m.inv D →
      ((∃ mp, m.root = .node mp ∧ mp ≠ []) ∨ ∃ e ∈ seqs, e.1.length = D) →
      ∃ mp, ((m.insertAll seqs).root = .node mp ∧ mp ≠ [])
  | [], m => by
    intro hinv hcase
    rcases hcase with h | h
    · exact h
    · simp at h
  | e :: rest, m => by
    intro hinv hcase
    have hinv1 := insert_inv D m hinv e.1 e.2
    rcases hcase with h | h
    · exact insertAll_root_ne_nil D hD rest _ hinv1
        (Or.inl (insert_root_ne_nil m e.1 e.2 h))
    · by_cases he : e.1.length = D
      · exact insertAll_root_ne_nil D hD rest _ hinv1
          (Or.inl (insert_fills_root D hD m hinv e.1 he e.2))
      · rcases h with ⟨e2, he2, hlen2⟩
        rcases List.mem_cons.1 he2 with rfl | he3
        · exact absurd hlen2 he
        · exact insertAll_root_ne_nil D hD rest _ hinv1 (Or.inr ⟨e2, he3, hlen2⟩)

theorem mapChildren_of_wf :
    ∀ mp : List (Nat × Markov.Node), (∀ e ∈ mp, wfNode 0 e.2) →
      ∃ items, Markov.mapChildren mp = some items ∧ items.length = mp.length
  | [] => fun _ => ⟨[], rfl, rfl⟩
  | (b, c) :: rest => by
    intro hwf
    have hw := hwf (b, c) (by simp)
    simp only [wfNode] at hw
    obtain ⟨w, hw0⟩ := hw
    obtain ⟨items, hit, hlen⟩ :=
      mapChildren_of_wf rest (fun e he => hwf e (by simp [he]))
    subst hw0
    refine ⟨⟨w, b⟩ :: items, ?_, by simp [hlen]⟩
    simp [Markov.mapChildren, hit]

/-- Context iteration of a well-formed subtree succeeds and yields only
nonempty symbol lists. -/
theorem iterCtx_wf (d : Nat) :
    ∀ (n : Markov.Node) (pref : List Nat), wfNode (d + 1) n →
      ∃ ps, Markov.iterCtx d n pref = some ps ∧ ∀ pr ∈ ps, pr.2 ≠ [] := by
  induction d with
  | zero =>
    intro n pref hwf
    simp only [wfNode] at hwf
    obtain ⟨mp, rfl, hne, hwf0⟩ := hwf
    obtain ⟨items, hit, hlen⟩ := mapChildren_of_wf mp hwf0
    refine ⟨[(pref, items)], by simp [Markov.iterCtx, hit], ?_⟩
    intro pr hpr
    simp only [List.mem_singleton] at hpr
    subst hpr
    intro hcontra
    simp at hcontra
    rw [hcontra] at hlen
    simp only [List.length_nil] at hlen
    exact hne (List.length_eq_zero.1 hlen.symm)
  | succ d ih =>
    intro n pref hwf
    simp only [wfNode] at hwf
    obtain ⟨mp, rfl, hne, hwfc⟩ := hwf
    have hmap : ∀ (ml : List (Nat × Markov.Node)),
        (∀ e ∈ ml, wfNode (d + 1) e.2) → ∀ pref2 : List Nat,
        ∃ ps, Markov.iterCtxMap d ml pref2 = some ps ∧ ∀ pr ∈ ps, pr.2 ≠ [] := by
      intro ml
      induction ml with
      | nil =>
        intro _ pref2
        exact ⟨[], by simp [Markov.iterCtxMap], by simp⟩
      | cons e rest ihm =>
        intro hwf2 pref2
        obtain ⟨b, c⟩ := e
        obtain ⟨ps1, hps1, hne1⟩ := ih c (pref2 ++ [b]) (hwf2 (b, c) (by simp))
        obtain ⟨ps2, hps2, hne2⟩ := ihm (fun x hx => hwf2 x (by simp [hx])) pref2
        refine ⟨ps1 ++ ps2, by simp [Markov.iterCtxMap, hps1, hps2], ?_⟩
        intro pr hpr
        rcases List.mem_append.1 hpr with h | h
        · exact hne1 pr h
        · exact hne2 pr h
    obtain ⟨ps, hps, hne2⟩ := hmap mp hwfc pref
    exact ⟨ps, by simp [Markov.iterCtx, hps], hne2⟩

/-- The same statement for the child map at the root. -/
theorem iterCtxMap_wf (d : Nat) :
    ∀ (ml : List (Nat × Markov.Node)) (pref : List Nat),
      (∀ e ∈ ml, wfNode (d + 1) e.2) →
      ∃ ps, Markov.iterCtxMap d ml pref = some ps ∧ ∀ pr ∈ ps, pr.2 ≠ [] := by
  intro ml
  induction ml with
  | nil =>
    intro pref _
    exact ⟨[], by simp [Markov.iterCtxMap], by simp⟩
  | cons e rest ihm =>
    intro pref hwf2
    obtain ⟨b, c⟩ := e
    obtain ⟨ps1, hps1, hne1⟩ := iterCtx_wf d c (pref ++ [b]) (hwf2 (b, c) (by simp))
    obtain ⟨ps2, hps2, hne2⟩ := ihm pref (fun x hx => hwf2 x (by simp [hx]))
    refine ⟨ps1 ++ ps2, by simp [Markov.iterCtxMap, hps1, hps2], ?_⟩
    intro pr hpr
    rcases List.mem_append.1 hpr with h | h
    · exact hne1 pr h
    · exact hne2 pr h

/-- Context iteration of an invariant-satisfying model of order at least
2, or of any order with a nonempty root, succeeds with only nonempty
symbol lists. -/
theorem ctxIter_wf (D : Nat) (hD : 1 ≤ D) (m : Markov) (hinv : m.inv D)
    (hne : 2 ≤ D ∨ ∃ mp, m.root = .node mp ∧ mp ≠ []) :
    ∃ ps, m.ctxIter = some ps ∧ ∀ pr ∈ ps, pr.2 ≠ [] := by
  obtain ⟨hdep, mp, hroot, hwfc⟩ := hinv
  unfold Markov.ctxIter
  rw [hroot, hdep]
  by_cases hD2 : 2 ≤ D
  · have hd : D - 1 = (D - 2) + 1 := by omega
    rw [hd]
    rw [hd] at hwfc
    obtain ⟨ps, hps, hne2⟩ := iterCtxMap_wf (D - 2) mp [] hwfc
    exact ⟨ps, by simp [Markov.iterCtx, hps], hne2⟩
  · have hD1 : D = 1 := by omega
    subst hD1
    rcases hne with h2 | ⟨mp2, hroot2, hne2⟩
    · omega
    · rw [hroot] at hroot2
      cases hroot2
      obtain ⟨items, hit, hlen⟩ := mapChildren_of_wf mp (by simpa using hwfc)
      refine ⟨[([], items)], by simp [Markov.iterCtx, hit], ?_⟩
      intro pr hpr
      simp only [List.mem_singleton] at hpr
      subst hpr
      intro hcontra
      simp at hcontra
      rw [hcontra] at hlen
      simp only [List.length_nil] at hlen
      exact hne2 (List.length_eq_zero.1 hlen.symm)

namespace Huffman

/-- The combine loop yields a root for every nonempty heap. -/
theorem combineAll_isSome :
    ∀ (n : Nat) (l : List WeightedNode), l.length ≤ n → l ≠ [] →
      ∃ r, combineAll l = some r
  | n, l => by
    intro hlen hne
    rcases h1 : popMin l with _ | ⟨a, rest⟩
    · exact absurd ((popMin_eq_none_iff l).1 h1) hne
    · rcases h2 : popMin rest with _ | ⟨b, rest2⟩
      · exact ⟨a, combineAll_of_single l a
          (by rw [h1, (popMin_eq_none_iff rest).1 h2])⟩
      · match n, hlen with
        | 0, hlen =>
          have : l = [] := by
            cases l
            · rfl
            · simp at hlen
          exact absurd this hne
        | n + 1, hlen =>
          have hl1 := popMin_length l a rest h1
          have hl2 := popMin_length rest b rest2 h2
          obtain ⟨r, hr⟩ := combineAll_isSome n
            (⟨satAdd a.weight b.weight, .node a.node b.node⟩ :: rest2)
            (by simp only [List.length_cons]; omega) (by simp)
          exact ⟨r, by rw [combineAll_of_two l a b rest rest2 h1 h2, hr]⟩

/-- Node::new never fails on a nonempty weighted symbol set. -/
theorem node_new_isSome (items : List WeightedItem) (hne : items ≠ []) :
    ∃ t, Node.new items = some t := by
  have hlist : (items.map fun it =>
      (⟨it.weight, Node.leaf it.item⟩ : WeightedNode)) ≠ [] := by
    simpa using hne
  obtain ⟨r, hr⟩ := combineAll_isSome
    (items.map fun it => (⟨it.weight, Node.leaf it.item⟩ : WeightedNode)).length
    (items.map fun it => (⟨it.weight, Node.leaf it.item⟩ : WeightedNode))
    (Nat.le_refl _) hlist
  exact ⟨r.node, by unfold Node.new; rw [hr]; rfl⟩

end Huffman

theorem buildTrees_isSome :
    ∀ ps : List (List Nat × List Huffman.WeightedItem),
      (∀ pr ∈ ps, pr.2 ≠ []) → ∃ ts, buildTrees ps = some ts
  | [] => fun _ => ⟨[], rfl⟩
  | (pref, items) :: rest => by
    intro hne
    obtain ⟨t, ht⟩ := Huffman.node_new_isSome items (hne (pref, items) (by simp))
    obtain ⟨ts, hts⟩ := buildTrees_isSome rest (fun pr hpr => hne pr (by simp [hpr]))
    exact ⟨(pref, t) :: ts, by simp [buildTrees, ht, hts]⟩

/-- C8 counterexample: the untouched model of order 1. Its context
iteration materializes the empty context with an empty symbol list, and
building the per-context tree collection fails (Decoder::new panics on
the unwrap of Node::new None). -/
theorem empty_context_counterexample :
    (Markov.new 1).ctxIter = some [([], [])]
      ∧ Huffman.Decoder.new (Markov.new 1) = none := by
  have h1 : (Markov.new 1).ctxIter = some [([], [])] := by
    unfold Markov.ctxIter
    show Markov.iterCtx 0 (.node []) [] = some [([], [])]
    simp [Markov.iterCtx, Markov.mapChildren]
  have h2 : Huffman.Node.new [] = none := by
    unfold Huffman.Node.new
    simp only [List.map_nil]
    rw [Huffman.combineAll_of_none [] rfl]
    rfl
  refine ⟨h1, ?_⟩
  unfold Huffman.Decoder.new
  rw [h1]
  simp [buildTrees, h2]

/-- C8 amended: for a model of order D reached from Markov::new by any
insert calls, provided D is at least 2 or some insert supplied a
sequence of the exact length D, the context iteration succeeds, every
yielded pair carries a nonempty symbol list, and Decoder::new builds the
per-context Huffman tree collection without failing. The untouched
order-1 model is the exception the original claim missed. -/
theorem ctx_iteration_nonempty (D : Nat) (hD : 1 ≤ D)
    (seqs : List (List Nat × Nat))
    (hne : 2 ≤ D ∨ ∃ e ∈ seqs, e.1.length = D) :
    (((Markov.new D).insertAll seqs).ctxIter).isSome
      ∧ (∀ ps, ((Markov.new D).insertAll seqs).ctxIter = some ps →
          ∀ pr ∈ ps, pr.2 ≠ [])
      ∧ (Huffman.Decoder.new ((Markov.new D).insertAll seqs)).isSome := by
  have hinv := insertAll_inv D seqs (Markov.new D) (new_inv D)
  have hcase : 2 ≤ D
      ∨ ∃ mp, ((Markov.new D).insertAll seqs).root = .node mp ∧ mp ≠ [] := by
    rcases hne with h | h
    · exact Or.inl h
    · exact Or.inr (insertAll_root_ne_nil D hD seqs (Markov.new D) (new_inv D)
        (Or.inr h))
  obtain ⟨ps, hps, hne2⟩ := ctxIter_wf D hD _ hinv hcase
  obtain ⟨ts, hts⟩ := buildTrees_isSome ps hne2
  refine ⟨by simp [hps], ?_, ?_⟩
  · intro ps1 hps1
    rw [hps] at hps1
    cases hps1
    exact hne2
  · unfold Huffman.Decoder.new
    rw [hps]
    simp [hts]

/-- C8 amended witness: order 1 with one inserted length-1 sequence. -/
theorem ctx_iteration_nonempty_witness :
    (Huffman.Decoder.new ((Markov.new 1).insertAll [([5], 3)])).isSome :=
  (ctx_iteration_nonempty 1 (by decide) [([5], 3)]
    (Or.inr ⟨([5], 3), by simp, rfl⟩)).2.2

end HuffmanMarkov
